import Mathlib

/-!
Verification of the transformer fine-tuning trainer (train.py) against its
natural-language specification.  Each section shallowly embeds the part of the
source relevant to one claim and proves (or refutes) the claim about it.
-/

namespace FTLM

/-!
Best-model checkpointing (train.py, Model.log lines 195-198, Model.train
lines 478 and 492-494).  An evaluation is modelled as a pair (accuracy,
parameter snapshot).  Model.log saves the current parameters whenever the
accuracy strictly exceeds the best score seen so far; best_score starts at 0
(Model.init, line 150); at the end of Model.train the persisted snapshot
is loaded back into the live parameters.
-/

/-- One Model.log step: state is (best_score, snapshot saved on disk); an
evaluation (va_acc, current params) overwrites both iff va_acc > best_score. -/
def logStep {α : Type} (s : ℚ × α) (e : ℚ × α) : ℚ × α :=
  if s.1 < e.1 then e else s

/-- The parameters live at the end of Model.train: fold the log steps from
(best_score = 0, snapshot = post-transfer initial params) and reload the
snapshot. -/
def runTrain {α : Type} (init : α) (evals : List (ℚ × α)) : α :=
  (evals.foldl logStep (0, init)).2

/-- Model.log with the persisted file made explicit: state is
(file contents, best_score); train() writes the initial parameters to the
file before the first update (train.py line 478). -/
def logStepFile {α : Type} (s : Option α × ℚ) (e : ℚ × α) : Option α × ℚ :=
  if s.2 < e.1 then (some e.2, e.1) else s

/-- Contents of the best-params file at the end of Model.train. -/
def trainFile {α : Type} (init : α) (evals : List (ℚ × α)) : Option α :=
  (evals.foldl logStepFile (some init, 0)).1

lemma foldl_logStep_const {α : Type} (evals : List (ℚ × α)) (b : ℚ) (p : α)
    (h : ∀ e ∈ evals, e.1 ≤ b) : evals.foldl logStep (b, p) = (b, p) := by
  induction evals with
  | nil => rfl
  | cons e es ih =>
    have he : ¬ b < e.1 := not_lt.mpr (h e (List.mem_cons_self e es))
    simp only [List.foldl_cons, logStep, he, if_false]
    exact ih fun x hx => h x (List.mem_cons_of_mem e hx)

lemma foldl_logStep_find {α : Type} :
    ∀ (evals : List (ℚ × α)) (b : ℚ) (p : α) (M : ℚ), b < M →
      (∃ e ∈ evals, e.1 = M) → (∀ e ∈ evals, e.1 ≤ M) →
      (evals.find? (fun e => e.1 == M)).map Prod.snd =
        some ((evals.foldl logStep (b, p)).2) := by
  intro evals
  induction evals with
  | nil => intro b p M _ hmem _; rcases hmem with ⟨e, he, _⟩; cases he
  | cons e es ih =>
    intro b p M hbM hmem hub
    by_cases he : e.1 = M
    · have hfind : (e :: es).find? (fun x => x.1 == M) = some e :=
        List.find?_cons_of_pos _ (beq_iff_eq.mpr he)
      have hstep : logStep (b, p) e = (M, e.2) := by
        simp only [logStep, he ▸ hbM, if_true]
        exact Prod.ext he rfl
      have hrest : es.foldl logStep (M, e.2) = (M, e.2) :=
        foldl_logStep_const es M e.2 fun x hx => hub x (List.mem_cons_of_mem e hx)
      simp [hfind, hstep, hrest]
    · have hfind : (e :: es).find? (fun x => x.1 == M) = es.find? (fun x => x.1 == M) :=
        List.find?_cons_of_neg _ (by simpa using he)
      have hmem' : ∃ x ∈ es, x.1 = M := by
        rcases hmem with ⟨x, hx, hxM⟩
        rcases List.mem_cons.mp hx with h | h
        · exact absurd (h ▸ hxM) he
        · exact ⟨x, h, hxM⟩
      have hub' : ∀ x ∈ es, x.1 ≤ M := fun x hx => hub x (List.mem_cons_of_mem e hx)
      rw [hfind, List.foldl_cons]
      by_cases hbe : b < e.1
      · have heM : e.1 < M := lt_of_le_of_ne (hub e (List.mem_cons_self e es)) he
        simp only [logStep, hbe, if_true]
        exact ih e.1 e.2 M heM hmem' hub'
      · simp only [logStep, hbe, if_false]
        exact ih b p M hbM hmem' hub'

lemma foldl_logStepFile_eq {α : Type} :
    ∀ (evals : List (ℚ × α)) (b : ℚ) (p : α),
      evals.foldl logStepFile (some p, b) =
        (some (evals.foldl logStep (b, p)).2, (evals.foldl logStep (b, p)).1) := by
  intro evals
  induction evals with
  | nil => intro b p; rfl
  | cons e es ih =>
    intro b p
    simp only [List.foldl_cons, logStep, logStepFile]
    by_cases hbe : b < e.1
    · simp only [hbe, if_true]; exact ih e.1 e.2
    · simp only [hbe, if_false]; exact ih b p

/-- Claim C1 counterexample: with a single evaluation of accuracy 0 (the
maximum over the run) carrying parameters 1, train() ends on the initial
parameters 0, not on the parameters of the maximum-accuracy evaluation. -/
theorem runTrain_not_always_max :
    runTrain (0 : ℕ) [((0 : ℚ), (1 : ℕ))] = 0 ∧
      (List.find? (fun e => e.1 == (0 : ℚ)) [((0 : ℚ), (1 : ℕ))]).map Prod.snd = some 1 ∧
      (0 : ℕ) ≠ 1 := by
  refine ⟨rfl, ?_, by decide⟩
  rfl

/-- Claim C1 (amended): whenever some validation accuracy is strictly
positive, the parameters at the end of train() are those of the first
evaluation attaining the maximum accuracy M (with ties broken towards the
earliest evaluation, and runs whose accuracies never exceed the initial
best score 0 ending on the initial parameters instead). -/
theorem runTrain_selects_first_best {α : Type} (init : α) (evals : List (ℚ × α))
    (M : ℚ) (hpos : 0 < M) (hmem : ∃ e ∈ evals, e.1 = M)
    (hub : ∀ e ∈ evals, e.1 ≤ M) :
    (evals.find? (fun e => e.1 == M)).map Prod.snd = some (runTrain init evals) :=
  foldl_logStep_find evals 0 init M hpos hmem hub

/-- Witness for C1: the spec's own example [70, 85, 80, 90, 88] ends on the
snapshot of the accuracy-90 evaluation. -/
theorem runTrain_selects_first_best_witness :
    (List.find? (fun e => e.1 == (90 : ℚ))
        [((70 : ℚ), (1 : ℕ)), (85, 2), (80, 3), (90, 4), (88, 5)]).map Prod.snd =
      some (runTrain 0 [((70 : ℚ), (1 : ℕ)), (85, 2), (80, 3), (90, 4), (88, 5)]) :=
  runTrain_selects_first_best 0 _ 90 (by norm_num) (by decide) (by decide)

/-- Claim C9: a persisted snapshot exists at every point (train() saves the
post-transfer parameters before the first update and the file is only ever
overwritten), so the end-of-training reload always finds one; and a run
whose accuracies never exceed 0 concludes on the initial parameters. -/
theorem trainFile_always_some {α : Type} (init : α) (evals : List (ℚ × α)) :
    (trainFile init evals).isSome = true ∧
      ((∀ e ∈ evals, e.1 ≤ 0) → trainFile init evals = some init) := by
  constructor
  · unfold trainFile
    rw [foldl_logStepFile_eq]
    rfl
  · intro h
    unfold trainFile
    rw [foldl_logStepFile_eq, foldl_logStep_const evals 0 init h]

/-- Witness for C9 at a concrete run whose only accuracy is 0. -/
theorem trainFile_always_some_witness :
    (trainFile (7 : ℕ) [((0 : ℚ), 9)]).isSome = true ∧
      trainFile (7 : ℕ) [((0 : ℚ), 9)] = some 7 :=
  ⟨(trainFile_always_some 7 [((0 : ℚ), 9)]).1,
   (trainFile_always_some 7 [((0 : ℚ), 9)]).2 (by decide)⟩

/-!
Combined training loss (train.py, Model.mgpu_train lines 298-301).
Per replica: train_loss = reduce_mean(clf_losses) + lm_coef *
reduce_mean(lm_losses) when lm_coef > 0, else reduce_mean(clf_losses).
-/

/-- tf.reduce_mean over a vector: running sum divided by element count. -/
def reduceMean (l : List ℚ) : ℚ := l.foldl (· + ·) 0 / l.length

/-- The loss whose gradients Model.mgpu_train takes, per replica. -/
def trainLoss (lmCoef : ℚ) (clfLosses lmLosses : List ℚ) : ℚ :=
  if 0 < lmCoef then reduceMean clfLosses + lmCoef * reduceMean lmLosses
  else reduceMean clfLosses

/-- The spec's formula for the combined loss, written with List.sum. -/
def specCombinedLoss (lmCoef : ℚ) (clfLosses lmLosses : List ℚ) : ℚ :=
  if 0 < lmCoef then
    clfLosses.sum / clfLosses.length + lmCoef * (lmLosses.sum / lmLosses.length)
  else clfLosses.sum / clfLosses.length

/-- Claim C2: the replica training loss equals mean(clf) + lm_coef * mean(lm)
when lm_coef > 0 and mean(clf) alone when lm_coef <= 0. -/
theorem trainLoss_eq_spec (lmCoef : ℚ) (clfLosses lmLosses : List ℚ) :
    trainLoss lmCoef clfLosses lmLosses = specCombinedLoss lmCoef clfLosses lmLosses := by
  unfold trainLoss specCombinedLoss reduceMean
  rw [← List.sum_eq_foldl, ← List.sum_eq_foldl]

/-!
Gelu activation (train.py, line 22-23):
0.5*x*(1+tf.tanh(math.sqrt(2/math.pi)*(x+0.044715*tf.pow(x, 3)))).
-/

/-- The gelu activation exactly as computed by the source. -/
noncomputable def gelu (x : ℝ) : ℝ :=
  0.5 * x * (1 + Real.tanh (Real.sqrt (2 / Real.pi) * (x + 0.044715 * x ^ (3 : ℕ))))

/-- The spec's closed-form gelu expression. -/
noncomputable def geluSpecFormula (x : ℝ) : ℝ :=
  0.5 * x * (1 + Real.tanh (Real.sqrt (2 / Real.pi) * (x + 0.044715 * x ^ (3 : ℕ))))

/-- Claim C7: for every real input x, gelu returns exactly
0.5*x*(1+tanh(sqrt(2/pi)*(x+0.044715*x^3))). -/
theorem gelu_eq_spec_formula : ∀ x : ℝ, gelu x = geluSpecFormula x :=
  fun _ => rfl

/-!
Causal attention mask (train.py, mask_attn_weights lines 66-71, used by
Model._attn lines 200-211).  b = tf.matrix_band_part(tf.ones([n, n]), -1, 0)
is the lower-triangular all-ones matrix (entry 1 iff key index <= query
index); the logits are replaced by w*b + -1e9*(1-b) before softmax.
-/

/-- Entry (i, j) of tf.matrix_band_part(tf.ones([n, n]), -1, 0). -/
noncomputable def bandLower (i j : ℕ) : ℝ := if j ≤ i then 1 else 0

/-- mask_attn_weights on an attention-logit matrix w, entrywise:
w*b + -1e9*(1-b). -/
noncomputable def maskAttnWeights {n : ℕ} (w : Fin n → Fin n → ℝ) (i j : Fin n) : ℝ :=
  w i j * bandLower i.val j.val + -(1e9) * (1 - bandLower i.val j.val)

/-- tf.nn.softmax of a row, evaluated at column j. -/
noncomputable def softmaxAt {n : ℕ} (row : Fin n → ℝ) (j : Fin n) : ℝ :=
  Real.exp (row j) / ∑ k, Real.exp (row k)

/-- Claim C3: masking sets entry (i, j) to exactly -1e9 for every key index
j > i and leaves it at its input value for j <= i; consequently the softmax
probability of any masked position is bounded by exp(-1e9 - w i i), i.e. is
effectively zero. -/
theorem maskAttn_masks_future {n : ℕ} (w : Fin n → Fin n → ℝ) (i j : Fin n) :
    (maskAttnWeights w i j = if j.val ≤ i.val then w i j else -(1e9)) ∧
      (i.val < j.val →
        softmaxAt (maskAttnWeights w i) j ≤ Real.exp (-(1e9) - w i i)) := by
  have hmask : maskAttnWeights w i j = if j.val ≤ i.val then w i j else -(1e9) := by
    unfold maskAttnWeights bandLower
    by_cases h : j.val ≤ i.val
    · simp [h]
    · simp [h]
  refine ⟨hmask, fun hij => ?_⟩
  have hji : ¬ j.val ≤ i.val := not_le.mpr hij
  have hnum : maskAttnWeights w i j = -(1e9) := by rw [hmask, if_neg hji]
  have hdiag : maskAttnWeights w i i = w i i := by
    unfold maskAttnWeights bandLower
    simp
  have hlb : Real.exp (w i i) ≤ ∑ k, Real.exp (maskAttnWeights w i k) := by
    have h1 := Finset.single_le_sum
      (f := fun k => Real.exp (maskAttnWeights w i k))
      (fun k _ => le_of_lt (Real.exp_pos _)) (Finset.mem_univ i)
    simpa [hdiag] using h1
  have hsum_pos : 0 < ∑ k, Real.exp (maskAttnWeights w i k) :=
    lt_of_lt_of_le (Real.exp_pos _) hlb
  calc softmaxAt (maskAttnWeights w i) j
      = Real.exp (-(1e9)) / ∑ k, Real.exp (maskAttnWeights w i k) := by
        unfold softmaxAt; rw [hnum]
    _ ≤ Real.exp (-(1e9)) / Real.exp (w i i) := by gcongr
    _ = Real.exp (-(1e9) - w i i) := (Real.exp_sub _ _).symm

/-- Witness for C3 at n = 2, w = 0, i = 0, j = 1. -/
theorem maskAttn_masks_future_witness :
    softmaxAt (maskAttnWeights (fun _ _ => (0 : ℝ)) (0 : Fin 2)) 1 ≤
      Real.exp (-(1e9) - (fun _ _ => (0 : ℝ)) (0 : Fin 2) (0 : Fin 2)) :=
  (maskAttn_masks_future (fun _ _ => (0 : ℝ)) 0 1).2 (by decide)

/-!
Language-model loss (train.py, Model.model lines 266-271).  The code
flattens h[:, :-1] to a matrix lm_h of rows b*(n_ctx-1)+t, computes logits
lm_h @ we^T against labels reshape(X[:, 1:, 0], [-1]), reshapes the
per-position losses back to [batch, n_ctx-1], and per sequence takes
sum(losses * M[:, 1:], 1) / sum(M[:, 1:], 1).
-/

/-- Row r of lm_h = tf.reshape(h[:, :-1], [-1, n_embd]): sequence r/(nc-1),
position r%(nc-1). -/
noncomputable def lmH (nc : ℕ) (h : ℕ → ℕ → ℕ → ℝ) (r k : ℕ) : ℝ :=
  h (r / (nc - 1)) (r % (nc - 1)) k

/-- lm_logits = tf.matmul(lm_h, we, transpose_b=True): row r, vocab column v. -/
noncomputable def lmLogits (nc d : ℕ) (h : ℕ → ℕ → ℕ → ℝ) (we : ℕ → ℕ → ℝ)
    (r v : ℕ) : ℝ :=
  ∑ k ∈ Finset.range d, lmH nc h r k * we v k

/-- The flattened next-token labels tf.reshape(X[:, 1:, 0], [-1]). -/
def lmLabels (nc : ℕ) (X : ℕ → ℕ → ℕ) (r : ℕ) : ℕ :=
  X (r / (nc - 1)) (r % (nc - 1) + 1)

/-- Softmax cross-entropy with logits l over nv classes against label y. -/
noncomputable def xent (nv : ℕ) (l : ℕ → ℝ) (y : ℕ) : ℝ :=
  Real.log (∑ v ∈ Finset.range nv, Real.exp (l v)) - l y

/-- The flattened per-position LM losses
(tf.nn.sparse_softmax_cross_entropy_with_logits). -/
noncomputable def lmLossFlat (nc d nv : ℕ) (h : ℕ → ℕ → ℕ → ℝ) (X : ℕ → ℕ → ℕ)
    (we : ℕ → ℕ → ℝ) (r : ℕ) : ℝ :=
  xent nv (lmLogits nc d h we r) (lmLabels nc X r)

/-- Per-sequence LM loss as the code computes it: reshape the flat losses to
[batch, nc-1], multiply by M[:, 1:], sum along positions, divide by the mask
sum. -/
noncomputable def lmLossesCode (nc d nv : ℕ) (h : ℕ → ℕ → ℕ → ℝ) (X : ℕ → ℕ → ℕ)
    (M : ℕ → ℕ → ℝ) (we : ℕ → ℕ → ℝ) (b : ℕ) : ℝ :=
  (∑ t ∈ Finset.range (nc - 1), lmLossFlat nc d nv h X we (b * (nc - 1) + t) * M b (t + 1)) /
    (∑ t ∈ Finset.range (nc - 1), M b (t + 1))

/-- The logits the spec describes: hidden state of sequence b at position t
times the transposed (weight-tied) embedding table. -/
noncomputable def lmLogitsSpec (d : ℕ) (h : ℕ → ℕ → ℕ → ℝ) (we : ℕ → ℕ → ℝ)
    (b t v : ℕ) : ℝ :=
  ∑ k ∈ Finset.range d, h b t k * we v k

/-- The spec's per-sequence LM loss: sum over positions t >= 1 of the
cross-entropy between the logits at t-1 and the token at t, weighted by
M[t], divided by the sum of M[1:]. -/
noncomputable def lmLossSpec (nc d nv : ℕ) (h : ℕ → ℕ → ℕ → ℝ) (X : ℕ → ℕ → ℕ)
    (M : ℕ → ℕ → ℝ) (we : ℕ → ℕ → ℝ) (b : ℕ) : ℝ :=
  (∑ t ∈ Finset.Ico 1 nc, xent nv (lmLogitsSpec d h we b (t - 1)) (X b t) * M b t) /
    (∑ t ∈ Finset.Ico 1 nc, M b t)

/-- Claim C4: the per-sequence LM loss computed through the code's
flatten/reshape route equals the masked average the spec states. -/
theorem lmLossesCode_eq_spec (nc d nv : ℕ) (h : ℕ → ℕ → ℕ → ℝ) (X : ℕ → ℕ → ℕ)
    (M : ℕ → ℕ → ℝ) (we : ℕ → ℕ → ℝ) (b : ℕ) :
    lmLossesCode nc d nv h X M we b = lmLossSpec nc d nv h X M we b := by
  unfold lmLossesCode lmLossSpec
  have hden : (∑ t ∈ Finset.Ico 1 nc, M b t) = ∑ t ∈ Finset.range (nc - 1), M b (t + 1) := by
    rw [Finset.sum_Ico_eq_sum_range]
    exact Finset.sum_congr rfl fun t _ => by rw [Nat.add_comm]
  have hnum : (∑ t ∈ Finset.Ico 1 nc, xent nv (lmLogitsSpec d h we b (t - 1)) (X b t) * M b t) =
      ∑ t ∈ Finset.range (nc - 1), lmLossFlat nc d nv h X we (b * (nc - 1) + t) * M b (t + 1) := by
    rw [Finset.sum_Ico_eq_sum_range]
    refine Finset.sum_congr rfl fun t ht => ?_
    have htlt : t < nc - 1 := Finset.mem_range.mp ht
    have hm : 0 < nc - 1 := Nat.lt_of_le_of_lt (Nat.zero_le t) htlt
    have hdiv : (b * (nc - 1) + t) / (nc - 1) = b := by
      rw [Nat.mul_comm b (nc - 1), Nat.mul_add_div hm, Nat.div_eq_of_lt htlt, Nat.add_zero]
    have hmod : (b * (nc - 1) + t) % (nc - 1) = t := by
      rw [Nat.mul_comm b (nc - 1), Nat.mul_add_mod, Nat.mod_eq_of_lt htlt]
    unfold lmLossFlat lmLogits lmLabels lmH lmLogitsSpec
    rw [hdiv, hmod, Nat.add_comm 1 t, Nat.add_sub_cancel]
  rw [hden, hnum]

/-!
Parameter transfer (train.py, Model.train lines 455-461).  n_transfer is
rewritten to 0 when it is -1 and to 1 + n_transfer*12 otherwise, and the
assignments run over zip(params[:n_transfer], init_params[:n_transfer]).
Python slicing l[:n] keeps the first n elements for n >= 0 and the first
len(l)+n (clamped at 0) elements for n < 0.
-/

/-- Python slice l[:n], including the negative-stop case. -/
def pySliceTo {α : Type} (n : ℤ) (l : List α) : List α :=
  if 0 ≤ n then l.take n.toNat else l.take ((l.length : ℤ) + n).toNat

/-- The rewritten n_transfer value: 0 for the -1 sentinel, else 1 + d*12. -/
def transferCount (d : ℤ) : ℤ := if d = -1 then 0 else 1 + d * 12

/-- Number of (trainable, pretrained) tensor pairs the assignment loop
touches: the length of zip(params[:n_transfer], init_params[:n_transfer]). -/
def numCopied {α : Type} (P I : List α) (d : ℤ) : ℕ :=
  min (pySliceTo (transferCount d) P).length (pySliceTo (transferCount d) I).length

/-- The trainable parameters after the transfer assignments: each touched
index k takes pretrained tensor k, all later indices keep their values. -/
def applyTransfer {α : Type} (P I : List α) (d : ℤ) : List α :=
  I.take (numCopied P I d) ++ P.drop (numCopied P I d)

lemma numCopied_le_lenP {α : Type} (P I : List α) (d : ℤ) :
    numCopied P I d ≤ P.length := by
  unfold numCopied pySliceTo
  refine le_trans (Nat.min_le_left _ _) ?_
  split <;> simp [List.length_take_le]

lemma numCopied_le_lenI {α : Type} (P I : List α) (d : ℤ) :
    numCopied P I d ≤ I.length := by
  unfold numCopied pySliceTo
  refine le_trans (Nat.min_le_right _ _) ?_
  split <;> simp [List.length_take_le]

/-- Claim C5 counterexample: at transfer value d = -2 the claimed copy count
1 + d*12 = -23 is not the number of copied tensors (Python slicing with a
negative stop copies nothing here). -/
theorem transferCount_not_claim_formula :
    numCopied ([0, 1, 2] : List ℕ) ([3, 4, 5] : List ℕ) (-2) = 0 ∧
      transferCount (-2) = -23 ∧ ((0 : ℤ) ≠ -23) := by
  refine ⟨rfl, by decide, by decide⟩

/-- Claim C5 (amended): the copy count is 0 when d = -1; for d >= 0 it
equals 1 + d*12 provided at least that many tensors exist on both sides
(it is truncated to the shorter list otherwise, and d <= -2 falls into
Python's negative-slice semantics); the copy assigns pretrained tensor k to
trainable parameter k for every k below the count and leaves every later
trainable parameter at its prior value. -/
theorem applyTransfer_amended {α : Type} (P I : List α) (d : ℤ) (dflt : α) :
    (d = -1 → numCopied P I d = 0 ∧ applyTransfer P I d = P) ∧
      (0 ≤ d → transferCount d ≤ min (P.length : ℤ) (I.length : ℤ) →
        (numCopied P I d : ℤ) = 1 + d * 12) ∧
      (∀ k, k < numCopied P I d →
        (applyTransfer P I d).getD k dflt = I.getD k dflt) ∧
      (∀ k, numCopied P I d ≤ k →
        (applyTransfer P I d).getD k dflt = P.getD k dflt) := by
  refine ⟨?_, ?_, ?_, ?_⟩
  · intro hd
    have hc : transferCount d = 0 := by rw [hd]; rfl
    have hn : numCopied P I d = 0 := by
      unfold numCopied
      rw [hc]
      simp [pySliceTo]
    refine ⟨hn, ?_⟩
    unfold applyTransfer
    rw [hn]
    simp
  · intro hd hle
    have hc : transferCount d = 1 + d * 12 := by
      unfold transferCount
      rw [if_neg (by omega)]
    have hcnn : 0 ≤ transferCount d := by omega
    have hlen : ∀ l : List α, (pySliceTo (transferCount d) l).length =
        min (transferCount d).toNat l.length := by
      intro l
      unfold pySliceTo
      rw [if_pos hcnn, List.length_take]
    have hP : (transferCount d).toNat ≤ P.length := by omega
    have hI : (transferCount d).toNat ≤ I.length := by omega
    unfold numCopied
    rw [hlen, hlen, Nat.min_eq_left hP, Nat.min_eq_left hI, Nat.min_self]
    omega
  · intro k hk
    have hkI : k < I.length := lt_of_lt_of_le hk (numCopied_le_lenI P I d)
    unfold applyTransfer
    rw [List.getD_eq_getElem?_getD, List.getElem?_append_left
      (by rw [List.length_take]; omega), List.getElem?_take_of_lt hk,
      ← List.getD_eq_getElem?_getD]
  · intro k hk
    have hlenTake : (I.take (numCopied P I d)).length = numCopied P I d :=
      List.length_take_of_le (numCopied_le_lenI P I d)
    unfold applyTransfer
    rw [List.getD_eq_getElem?_getD, List.getElem?_append_right
      (by rw [hlenTake]; exact hk), hlenTake, List.getElem?_drop,
      Nat.add_sub_cancel' hk, ← List.getD_eq_getElem?_getD]

/-- Witness for C5 at d = 0: one tensor is copied and later ones keep their
values. -/
theorem applyTransfer_amended_witness :
    (numCopied ([10, 20, 30] : List ℕ) [40, 50, 60] 0 : ℤ) = 1 + 0 * 12 ∧
      (applyTransfer ([10, 20, 30] : List ℕ) [40, 50, 60] 0).getD 0 7 =
        List.getD [40, 50, 60] 0 7 ∧
      (applyTransfer ([10, 20, 30] : List ℕ) [40, 50, 60] 0).getD 2 7 =
        List.getD [10, 20, 30] 2 7 :=
  ⟨(applyTransfer_amended [10, 20, 30] [40, 50, 60] 0 7).2.1 (by decide) (by decide),
   (applyTransfer_amended [10, 20, 30] [40, 50, 60] 0 7).2.2.1 0 (by decide),
   (applyTransfer_amended [10, 20, 30] [40, 50, 60] 0 7).2.2.2 2 (by decide)⟩

/-!
ROCStories input packing (train.py, Model.transform_roc lines 364-391 and
Model.data_prep lines 404-417).  max_len = n_ctx//2 - 2; each candidate
sequence is [start] + x1[:max_len] + [delimiter] + xi[:max_len] +
[clf_token], written into a zero-initialised row of width n_ctx, with a
mask of ones over the first l positions.
-/

/-- max_len as computed by data_prep (line 408): n_ctx//2 - 2 in Python int
arithmetic (negative for n_ctx < 4). -/
def maxLenOf (nCtx : ℕ) : ℤ := ((nCtx / 2 : ℕ) : ℤ) - 2

/-- One packed candidate sequence x12/x13 of transform_roc. -/
def rocSeq (start delim clfTok : ℤ) (ml : ℤ) (xa xb : List ℤ) : List ℤ :=
  start :: (pySliceTo ml xa ++ delim :: (pySliceTo ml xb ++ [clfTok]))

/-- The token row after the write xmb[i, c, :l, 0] = seq into a zero row. -/
def tokenRowWrite (nCtx : ℕ) (s : List ℤ) : List ℤ :=
  s ++ List.replicate (nCtx - s.length) 0

/-- The mask row after mmb[i, c, :l] = 1 into a zero row. -/
def maskRowWrite (nCtx l : ℕ) : List ℚ :=
  List.replicate l 1 ++ List.replicate (nCtx - l) 0

lemma getD_replicate_append (a b : ℚ) (l m j : ℕ) :
    (List.replicate l a ++ List.replicate m b).getD j 0 =
      if j < l then a else if j < l + m then b else 0 := by
  rw [List.getD_eq_getElem?_getD]
  by_cases h1 : j < l
  · rw [List.getElem?_append_left (by simpa using h1)]
    simp [List.getElem?_replicate, h1]
  · rw [List.getElem?_append_right (by simpa using not_lt.mp h1)]
    simp only [List.length_replicate, List.getElem?_replicate]
    by_cases h2 : j < l + m
    · have : j - l < m := by omega
      simp [this, h1, h2]
    · have : ¬ j - l < m := by omega
      simp [this, h1, h2]

/-- Claim C8 counterexample: at n_ctx = 2, max_len = -1 and Python's
negative slice keeps all but the last token, so a long first sentence
produces a packed sequence of length 6, exceeding both 2*max_len + 3 and
n_ctx, and the row write is out of bounds. -/
theorem rocSeq_bound_fails_small_ctx :
    (rocSeq 0 1 2 (maxLenOf 2) [7, 7, 7, 7] []).length = 6 ∧
      ¬ ((rocSeq 0 1 2 (maxLenOf 2) [7, 7, 7, 7] []).length ≤ 2) := by
  refine ⟨rfl, by decide⟩

/-- Claim C8 (amended): for n_ctx >= 4 (so that max_len >= 0), every packed
sequence has length at most 2*max_len + 3 <= n_ctx, the row write fits the
n_ctx-wide row exactly, and the mask row is 1 at exactly the first l
positions and 0 afterwards. -/
theorem rocSeq_in_bounds (nCtx : ℕ) (h4 : 4 ≤ nCtx)
    (start delim clfTok : ℤ) (xa xb : List ℤ) :
    (rocSeq start delim clfTok (maxLenOf nCtx) xa xb).length ≤
        2 * (maxLenOf nCtx).toNat + 3 ∧
      2 * (maxLenOf nCtx).toNat + 3 ≤ nCtx ∧
      (tokenRowWrite nCtx (rocSeq start delim clfTok (maxLenOf nCtx) xa xb)).length = nCtx ∧
      (∀ j : ℕ,
        (maskRowWrite nCtx (rocSeq start delim clfTok (maxLenOf nCtx) xa xb).length).getD j 0 =
          if j < (rocSeq start delim clfTok (maxLenOf nCtx) xa xb).length then 1 else 0) := by
  have hq : 2 ≤ nCtx / 2 := by omega
  have hml : 0 ≤ maxLenOf nCtx := by unfold maxLenOf; omega
  have hmlNat : (maxLenOf nCtx).toNat = nCtx / 2 - 2 := by unfold maxLenOf; omega
  have htake : ∀ l : List ℤ, (pySliceTo (maxLenOf nCtx) l).length ≤ (maxLenOf nCtx).toNat := by
    intro l
    unfold pySliceTo
    rw [if_pos hml, List.length_take]
    exact Nat.min_le_left _ _
  have hlen : (rocSeq start delim clfTok (maxLenOf nCtx) xa xb).length =
      (pySliceTo (maxLenOf nCtx) xa).length + (pySliceTo (maxLenOf nCtx) xb).length + 3 := by
    unfold rocSeq
    simp [List.length_append]
    omega
  have h1 : (rocSeq start delim clfTok (maxLenOf nCtx) xa xb).length ≤
      2 * (maxLenOf nCtx).toNat + 3 := by
    rw [hlen]
    have := htake xa
    have := htake xb
    omega
  have hdd : nCtx / 2 * 2 ≤ nCtx := Nat.div_mul_le_self nCtx 2
  have h2 : 2 * (maxLenOf nCtx).toNat + 3 ≤ nCtx := by
    rw [hmlNat]
    omega
  have hle : (rocSeq start delim clfTok (maxLenOf nCtx) xa xb).length ≤ nCtx := le_trans h1 h2
  refine ⟨h1, h2, ?_, ?_⟩
  · unfold tokenRowWrite
    rw [List.length_append, List.length_replicate]
    omega
  · intro j
    unfold maskRowWrite
    rw [getD_replicate_append]
    by_cases hj : j < (rocSeq start delim clfTok (maxLenOf nCtx) xa xb).length
    · simp [hj]
    · have : ¬ j < (rocSeq start delim clfTok (maxLenOf nCtx) xa xb).length +
          (nCtx - (rocSeq start delim clfTok (maxLenOf nCtx) xa xb).length) ∨ True := Or.inr trivial
      simp only [hj, if_false]
      split <;> rfl

/-- Witness for C8 at n_ctx = 10 with short sentences. -/
theorem rocSeq_in_bounds_witness :
    (rocSeq 0 1 2 (maxLenOf 10) [5, 6, 7] [8]).length ≤ 2 * (maxLenOf 10).toNat + 3 ∧
      2 * (maxLenOf 10).toNat + 3 ≤ 10 ∧
      (maskRowWrite 10 (rocSeq 0 1 2 (maxLenOf 10) [5, 6, 7] [8]).length).getD 3 0 =
        if 3 < (rocSeq 0 1 2 (maxLenOf 10) [5, 6, 7] [8]).length then 1 else 0 :=
  ⟨(rocSeq_in_bounds 10 (by decide) 0 1 2 [5, 6, 7] [8]).1,
   (rocSeq_in_bounds 10 (by decide) 0 1 2 [5, 6, 7] [8]).2.1,
   (rocSeq_in_bounds 10 (by decide) 0 1 2 [5, 6, 7] [8]).2.2.2 3⟩

/-!
Shape semantics of the attention sublayer and the transformer block
(train.py, Model.attn lines 213-225, Model.block lines 236-243, and the
tensor helpers at lines 66-95, 98-112).  Shapes are lists of dimensions;
each helper is modelled by its effect on the static shape.  Model.attn
asserts n_state % n_head == 0 before building anything (and Python's %
itself raises for n_head = 0), so construction is an Option.
-/

/-- Static shape of conv1d(x, scope, nf, 1): last dimension becomes nf. -/
def conv1dShape (xs : List ℕ) (nf : ℕ) : List ℕ := xs.dropLast ++ [nf]

/-- Static shape of each part of tf.split(c, 3, 2). -/
def splitThirdShape (xs : List ℕ) : List ℕ := xs.dropLast ++ [xs.getLastD 0 / 3]

/-- Static shape of split_states(x, n): last dimension m becomes [n, m//n]. -/
def splitStatesShape (xs : List ℕ) (n : ℕ) : List ℕ :=
  xs.dropLast ++ [n, xs.getLastD 0 / n]

/-- Static shape of tf.transpose(x, perm). -/
def transposeShape (perm xs : List ℕ) : List ℕ := perm.map (fun a => xs.getD a 0)

/-- Static shape of split_heads(x, n, k). -/
def splitHeadsShape (xs : List ℕ) (n : ℕ) (k : Bool) : List ℕ :=
  if k then transposeShape [0, 2, 3, 1] (splitStatesShape xs n)
  else transposeShape [0, 2, 1, 3] (splitStatesShape xs n)

/-- Static shape of tf.matmul on batched matrices. -/
def matmulShape (a b : List ℕ) : List ℕ := a.dropLast ++ [b.getLastD 0]

/-- Static shape of merge_states(x): last two dimensions collapse to their
product. -/
def mergeStatesShape (xs : List ℕ) : List ℕ :=
  xs.dropLast.dropLast ++ [(xs.drop (xs.length - 2)).prod]

/-- Static shape of merge_heads(x). -/
def mergeHeadsShape (xs : List ℕ) : List ℕ :=
  mergeStatesShape (transposeShape [0, 2, 1, 3] xs)

/-- Static shape of Model._attn(q, k, v): mask, softmax and dropout preserve
shape, so only the two matmuls matter. -/
def attnCoreShape (q k v : List ℕ) : List ℕ := matmulShape (matmulShape q k) v

/-- Static shape of Model.attn, or none when the assert (or Python's % on a
zero head count) fails at graph-construction time. -/
def attnShape (xs : List ℕ) (nState nHead : ℕ) : Option (List ℕ) :=
  if nHead ≠ 0 ∧ nState % nHead = 0 then
    some (conv1dShape (mergeHeadsShape (attnCoreShape
      (splitHeadsShape (splitThirdShape (conv1dShape xs (nState * 3))) nHead false)
      (splitHeadsShape (splitThirdShape (conv1dShape xs (nState * 3))) nHead true)
      (splitHeadsShape (splitThirdShape (conv1dShape xs (nState * 3))) nHead false))) nState)
  else none

/-- Static shape of Model.mlp(x, scope, n_state). -/
def mlpShape (xs : List ℕ) (nState : ℕ) : List ℕ :=
  conv1dShape (conv1dShape xs nState) (xs.getLastD 0)

/-- Elementwise addition of same-shape tensors keeps the shape. -/
def addShape (a _other : List ℕ) : List ℕ := a

/-- norm preserves shape. -/
def normShape (xs : List ℕ) : List ℕ := xs

/-- Static shape of Model.block: attn on nx = last dim, residual + norm,
mlp to nx*4 and back, residual + norm. -/
def blockShape (xs : List ℕ) (nHead : ℕ) : Option (List ℕ) :=
  match attnShape xs (xs.getLastD 0) nHead with
  | none => none
  | some a =>
    some (normShape (addShape (normShape (addShape xs a))
      (mlpShape (normShape (addShape xs a)) (xs.getLastD 0 * 4))))

/-- Claim C6: for a positive head count, constructing the attention sublayer
(and hence the block) fails at graph-construction time iff n_head does not
divide the layer width, and when it divides, the block maps an input of
shape [batch, n_ctx, n_embd] to an output of the same shape. -/
theorem blockShape_head_divisibility (B T E H : ℕ) (hH : 0 < H) :
    (attnShape [B, T, E] E H = none ↔ ¬ H ∣ E) ∧
      (blockShape [B, T, E] H = none ↔ ¬ H ∣ E) ∧
      (H ∣ E → blockShape [B, T, E] H = some [B, T, E]) := by
  have hne : H ≠ 0 := Nat.pos_iff_ne_zero.mp hH
  have hiff : H ∣ E ↔ E % H = 0 := Nat.dvd_iff_mod_eq_zero
  by_cases hdvd : E % H = 0
  · have hattn : attnShape [B, T, E] E H = some [B, T, E] := by
      unfold attnShape
      rw [if_pos ⟨hne, hdvd⟩]
      rfl
    have hblock : blockShape [B, T, E] H = some [B, T, E] := by
      unfold blockShape
      have hlast : ([B, T, E] : List ℕ).getLastD 0 = E := rfl
      rw [hlast, hattn]
      rfl
    constructor
    · rw [hattn]
      simp [hiff, hdvd]
    constructor
    · rw [hblock]
      simp [hiff, hdvd]
    · intro _
      exact hblock
  · have hattn : attnShape [B, T, E] E H = none := by
      unfold attnShape
      rw [if_neg (by tauto)]
    have hblock : blockShape [B, T, E] H = none := by
      unfold blockShape
      have hlast : ([B, T, E] : List ℕ).getLastD 0 = E := rfl
      rw [hlast, hattn]
    refine ⟨by rw [hattn]; simp [hiff, hdvd], by rw [hblock]; simp [hiff, hdvd], ?_⟩
    intro hd
    exact absurd (hiff.mp hd) hdvd

/-- Witness for C6 at B = 2, T = 3, E = 4, H = 2. -/
theorem blockShape_head_divisibility_witness :
    blockShape [2, 3, 4] 2 = some [2, 3, 4] :=
  (blockShape_head_divisibility 2 3 4 2 (by decide)).2.2 (by decide)

/-!
Evaluation logit scaling (train.py, Model.iter_apply lines 337-350 and
Model.log lines 179-184).  iter_apply multiplies every batch result by the
batch size n before concatenating; log() then takes row-wise argmax
(np.argmax over axis 1, first maximum wins) and an accuracy score.
-/

/-- np.argmax scan: first index of the strict running maximum. -/
def argmaxAux : List ℚ → ℕ → ℚ → ℕ → ℕ
  | [], _, _, bi => bi
  | x :: xs, i, bv, bi =>
    if bv < x then argmaxAux xs (i + 1) x i else argmaxAux xs (i + 1) bv bi

/-- np.argmax of a row: index of its first maximal entry (0 on empty). -/
def argmaxIdx : List ℚ → ℕ
  | [] => 0
  | x :: xs => argmaxAux xs 1 x 0

/-- One batch of logit rows after the res = [r * n for r in res] step:
every entry is multiplied by the batch size. -/
def scaleBatch (b : List (List ℚ)) : List (List ℚ) :=
  b.map (fun row => row.map (fun v => (b.length : ℚ) * v))

/-- The logits iter_apply returns: per-batch scaled results concatenated in
order. -/
def iterApplyLogits (batches : List (List (List ℚ))) : List (List ℚ) :=
  (batches.map scaleBatch).flatten

/-- sklearn accuracy_score of predictions against labels, as used in
Model.log. -/
def accuracyScore (labels preds : List ℕ) : ℚ :=
  ((labels.zip preds).countP (fun e => e.1 == e.2) : ℚ) / labels.length

lemma argmaxAux_map_scale (c : ℚ) (hc : 0 < c) :
    ∀ (xs : List ℚ) (i : ℕ) (bv : ℚ) (bi : ℕ),
      argmaxAux (xs.map (fun v => c * v)) i (c * bv) bi = argmaxAux xs i bv bi := by
  intro xs
  induction xs with
  | nil => intro i bv bi; rfl
  | cons x xs ih =>
    intro i bv bi
    simp only [List.map_cons, argmaxAux]
    by_cases h : bv < x
    · rw [if_pos ((mul_lt_mul_left hc).mpr h), if_pos h, ih]
    · rw [if_neg (fun hc' => h ((mul_lt_mul_left hc).mp hc')), if_neg h, ih]

lemma argmaxIdx_map_scale (c : ℚ) (hc : 0 < c) (row : List ℚ) :
    argmaxIdx (row.map (fun v => c * v)) = argmaxIdx row := by
  cases row with
  | nil => rfl
  | cons x xs =>
    simp only [List.map_cons, argmaxIdx]
    exact argmaxAux_map_scale c hc xs 1 x 0

lemma scaleBatch_argmax (b : List (List ℚ)) :
    (scaleBatch b).map argmaxIdx = b.map argmaxIdx := by
  cases hb : b with
  | nil => rfl
  | cons r rs =>
    have hpos : 0 < ((b.length : ℚ)) := by
      rw [hb, List.length_cons]
      exact_mod_cast Nat.succ_pos rs.length
    unfold scaleBatch
    rw [← hb, List.map_map]
    exact List.map_congr_left fun row _ => argmaxIdx_map_scale _ hpos row

/-- Claim C10: the logits iter_apply returns are the per-batch logits scaled
by the (positive) batch size; row-wise argmax is invariant under scaling by
any positive constant, so the predicted classes and hence the accuracies
computed in log() are unchanged by the scaling. -/
theorem iterApply_scaling_pred_invariant (batches : List (List (List ℚ)))
    (labels : List ℕ) :
    (iterApplyLogits batches).map argmaxIdx = batches.flatten.map argmaxIdx ∧
      (∀ (row : List ℚ) (n : ℕ), 0 < n →
        argmaxIdx (row.map (fun v => (n : ℚ) * v)) = argmaxIdx row) ∧
      accuracyScore labels ((iterApplyLogits batches).map argmaxIdx) =
        accuracyScore labels (batches.flatten.map argmaxIdx) := by
  have hmain : (iterApplyLogits batches).map argmaxIdx = batches.flatten.map argmaxIdx := by
    unfold iterApplyLogits
    induction batches with
    | nil => rfl
    | cons b bs ih =>
      simp only [List.map_cons, List.flatten_cons, List.map_append]
      rw [scaleBatch_argmax b, ih]
  refine ⟨hmain, ?_, by rw [hmain]⟩
  intro row n hn
  exact argmaxIdx_map_scale (n : ℚ) (by exact_mod_cast hn) row

/-- Witness for C10: scaling a row by batch size 2 keeps its argmax. -/
theorem iterApply_scaling_pred_invariant_witness :
    argmaxIdx ([1, 3, 2].map (fun v => ((2 : ℕ) : ℚ) * v)) = argmaxIdx [1, 3, 2] :=
  (iterApply_scaling_pred_invariant [] []).2.1 [1, 3, 2] 2 (by decide)

end FTLM
